import Mathlib

/-!
Verification development for the maco-strategy-app repository.

Shallow embedding conventions:
* symbols and trade dates are modelled as naturals, ordered as the source
  orders ticker strings and calendar dates (only their ordering and equality
  are ever used by the code under study);
* float prices are modelled as rationals (the properties at stake are exact
  arithmetic identities and comparisons, not rounding behaviour);
* a pandas DataFrame is a list of records; `sort_values` is modelled by
  `List.insertionSort` under the corresponding key order (for frames whose
  sort keys are pairwise distinct, any sort produces the same list, so the
  choice of algorithm is immaterial);
* fallible Python code (raised exceptions) is modelled with `Except`.
-/

namespace Maco

/-- A row of the price frame handed to `compute_maco_features`
(`src/app/transforms/maco.py`): only `symbol`, `trade_date` and `close`
are consumed by the feature pipeline. -/
structure PriceRow where
  symbol : ℕ
  trade_date : ℕ
  close : ℚ
  deriving DecidableEq, Repr, Inhabited

/-- A row produced by `compute_maco_features`: the input columns plus the
two rolling means (`sma_fast`, `sma_slow`). -/
structure FeatureRow where
  symbol : ℕ
  trade_date : ℕ
  close : ℚ
  sma_fast : ℚ
  sma_slow : ℚ
  deriving DecidableEq, Repr, Inhabited

/-- A row produced by `generate_signals`: a `FeatureRow` plus the `signal`
and `crossover` string columns. -/
structure SignalRow where
  symbol : ℕ
  trade_date : ℕ
  close : ℚ
  sma_fast : ℚ
  sma_slow : ℚ
  signal : String
  crossover : String
  deriving DecidableEq, Repr, Inhabited

/-- A row produced by `write_next_day_prediction`
(`src/app/jobs/compute_maco.py`); `generated_at` is a wall-clock timestamp
and is not modelled. -/
structure PredRow where
  symbol : ℕ
  trade_date : ℕ
  predicted_signal : String
  predicted_direction : String
  predicted_close : ℚ
  deriving DecidableEq, Repr, Inhabited

section FrameSort

variable {α : Type} (sym dat : α → ℕ)

/-- The ascending lexicographic order on (symbol, trade_date) used by
`df.sort_values(["symbol", "trade_date"])`. -/
def lexLe (a b : α) : Prop :=
  sym a < sym b ∨ (sym a = sym b ∧ dat a ≤ dat b)

/-- Strict version of `lexLe`; it orders any two rows with distinct
(symbol, trade_date) keys. -/
def lexLt (a b : α) : Prop :=
  sym a < sym b ∨ (sym a = sym b ∧ dat a < dat b)

/-- Ordering of rows by `trade_date` alone (`df.sort_values("trade_date")`). -/
def dateLe (a b : α) : Prop := dat a ≤ dat b

/-- Strict ordering of rows by `trade_date`. -/
def dateLt (a b : α) : Prop := dat a < dat b

instance : DecidableRel (lexLe sym dat) :=
  fun a b => inferInstanceAs (Decidable (_ ∨ _))

instance : DecidableRel (lexLt sym dat) :=
  fun a b => inferInstanceAs (Decidable (_ ∨ _))

instance : DecidableRel (dateLe dat) :=
  fun a b => inferInstanceAs (Decidable (_ ≤ _))

instance : IsTotal α (lexLe sym dat) where
  total a b := by
    rcases Nat.lt_trichotomy (sym a) (sym b) with h | h | h
    · exact Or.inl (Or.inl h)
    · rcases Nat.le_total (dat a) (dat b) with h2 | h2
      · exact Or.inl (Or.inr ⟨h, h2⟩)
      · exact Or.inr (Or.inr ⟨h.symm, h2⟩)
    · exact Or.inr (Or.inl h)

instance : IsTrans α (lexLe sym dat) where
  trans a b c hab hbc := by
    rcases hab with h1 | ⟨h1, h1d⟩ <;> rcases hbc with h2 | ⟨h2, h2d⟩
    · exact Or.inl (h1.trans h2)
    · exact Or.inl (h2 ▸ h1)
    · exact Or.inl (h1 ▸ h2)
    · exact Or.inr ⟨h1.trans h2, h1d.trans h2d⟩

instance : IsTotal α (dateLe dat) where
  total a b := Nat.le_total (dat a) (dat b)

instance : IsTrans α (dateLe dat) where
  trans _ _ _ hab hbc := Nat.le_trans hab hbc

instance : IsAntisymm α (lexLt sym dat) where
  antisymm a b hab hba := by
    exfalso
    rcases hab with h1 | ⟨h1, h1d⟩ <;> rcases hba with h2 | ⟨h2, h2d⟩
    · exact Nat.lt_asymm h1 h2
    · exact Nat.lt_irrefl _ (h2 ▸ h1)
    · exact Nat.lt_irrefl _ (h1 ▸ h2)
    · exact Nat.lt_asymm h1d h2d

instance : IsAntisymm α (dateLt dat) where
  antisymm _ _ hab hba := absurd hba (Nat.lt_asymm hab)

/-- Model of `df.sort_values(["symbol", "trade_date"]).reset_index(drop=True)`. -/
def sortFrame (l : List α) : List α :=
  List.insertionSort (lexLe sym dat) l

/-- Model of `df.sort_values("trade_date")`. -/
def sortByDate (l : List α) : List α :=
  List.insertionSort (dateLe dat) l

/-- The frame's (symbol, trade_date) keys are pairwise distinct: the
hypothesis under which the claims about the feature pipeline are stated. -/
def distinctKeys (l : List α) : Prop :=
  (l.map fun a => (sym a, dat a)).Nodup

instance (l : List α) : Decidable (distinctKeys sym dat l) :=
  inferInstanceAs (Decidable (List.Nodup _))

end FrameSort

/-!
## Retry/backoff delay of the fallback adapter

`fetch_yahoo_prices` (src/app/ingestion/yahoo_backfill.py, lines 125-130)
computes, on a retried attempt,
  `sleep_time = min(base_sleep * 2 ** attempt, max_sleep)` and then
  `total_sleep = min(sleep_time + jitter, max_sleep)`.
The spec gives the single-capped formula
  `min(base * 2 ^ attempt + jitter, max_delay)`.
-/

/-- The double-capped delay expression as written in the code. -/
def code_delay (base_sleep max_sleep : ℚ) (attempt : ℕ) (jitter : ℚ) : ℚ :=
  min (min (base_sleep * 2 ^ attempt) max_sleep + jitter) max_sleep

/-- The single-capped delay formula as written in the spec. -/
def spec_delay (base_sleep max_sleep : ℚ) (attempt : ℕ) (jitter : ℚ) : ℚ :=
  min (base_sleep * 2 ^ attempt + jitter) max_sleep


/-!
## Feature engine (`src/app/transforms/maco.py`)

`compute_sma` is `df[value_col].rolling(window=window, min_periods=1).mean()`:
at each position the mean of the trailing at-most-`window` values, defined
from the first bar on (partial windows).  `compute_maco_features` sorts the
frame by (symbol, trade_date) and computes that rolling mean per
`groupby("symbol")` group; with `group_keys=False` the per-group results are
aligned back onto the frame by index, so each row receives the rolling mean
of its own symbol's closes at its position within that symbol's group.
-/

/-- The trailing window content: the last at-most-`w` elements of `xs`
(the window pandas averages at the final position of `xs`). -/
def windowLast (w : ℕ) (xs : List ℚ) : List ℚ := xs.drop (xs.length - w)

/-- `rolling(window=w, min_periods=1).mean()` evaluated at the last
position of `xs`. -/
def rollingMeanLast (w : ℕ) (xs : List ℚ) : ℚ :=
  (windowLast w xs).sum / ((windowLast w xs).length : ℚ)

/-- One pass of the groupby-rolling computation over the sorted frame:
`seen` holds the rows already traversed (in frame order); the current row
receives the rolling mean over the closes of its own symbol's rows up to
and including itself, which is exactly what
`groupby("symbol").apply(compute_sma)` aligned by index assigns to it. -/
def featuresAux (wf ws : ℕ) : List PriceRow → List PriceRow → List FeatureRow
  | _, [] => []
  | seen, r :: rest =>
    let hist := ((seen ++ [r]).filter fun x => x.symbol == r.symbol).map
      PriceRow.close
    { symbol := r.symbol, trade_date := r.trade_date, close := r.close,
      sma_fast := rollingMeanLast wf hist, sma_slow := rollingMeanLast ws hist }
      :: featuresAux wf ws (seen ++ [r]) rest

/-- `compute_maco_features(df, sma_fast, sma_slow)`: sort by
(symbol, trade_date), then per-symbol rolling means of `close`. -/
def compute_maco_features (frame : List PriceRow) (wf ws : ℕ) :
    List FeatureRow :=
  featuresAux wf ws [] (sortFrame PriceRow.symbol PriceRow.trade_date frame)

/-- A symbol's chronologically sorted series of bars inside a frame: the
rows of that symbol ordered by `trade_date` (the series the spec's
invariant indexes with `i`). -/
def symbolSeries (frame : List PriceRow) (s : ℕ) : List PriceRow :=
  sortByDate PriceRow.trade_date (frame.filter fun r => r.symbol == s)

/-- The single-symbol rolling recursion: `prev` holds the closes of the
bars of this symbol already traversed. -/
def seriesFeatures (wf ws : ℕ) : List ℚ → List PriceRow → List FeatureRow
  | _, [] => []
  | prev, r :: rest =>
    { symbol := r.symbol, trade_date := r.trade_date, close := r.close,
      sma_fast := rollingMeanLast wf (prev ++ [r.close]),
      sma_slow := rollingMeanLast ws (prev ++ [r.close]) }
      :: seriesFeatures wf ws (prev ++ [r.close]) rest


/-!
## Signal classifier (`generate_signals` in `src/app/transforms/maco.py`)

`generate_signals` re-sorts by (symbol, trade_date), computes
`prev_fast`/`prev_slow` as `groupby("symbol")[...].shift(1)` — i.e. the
previous same-symbol row's SMAs, NaN on each symbol's first row — and
classifies each row with `classify`.
-/

/-- The row-wise `classify` function of `generate_signals`: `none` models
the NaN produced by `shift(1)` on a symbol's first row; `crossed_up` is
`prev_fast <= prev_slow and sma_fast > sma_slow`, `crossed_down` is
`prev_fast >= prev_slow and sma_fast < sma_slow`, checked in that order. -/
def classify (prev : Option (ℚ × ℚ)) (fast slow : ℚ) : String × String :=
  match prev with
  | none => ("HOLD", "NONE")
  | some (pf, ps) =>
    if pf ≤ ps ∧ fast > slow then ("BUY", "GOLDEN")
    else if pf ≥ ps ∧ fast < slow then ("SELL", "DEAD")
    else ("HOLD", "NONE")

/-- One pass over the sorted feature frame: each row's lagged SMAs are
those of the last already-traversed row of the same symbol (exactly
`groupby("symbol").shift(1)` on a frame where groups are row-order
subsequences). -/
def signalsAux : List FeatureRow → List FeatureRow → List SignalRow
  | _, [] => []
  | seen, r :: rest =>
    let prevRow := (seen.filter fun x => x.symbol == r.symbol).getLast?
    let sc := classify (prevRow.map fun p => (p.sma_fast, p.sma_slow))
      r.sma_fast r.sma_slow
    { symbol := r.symbol, trade_date := r.trade_date, close := r.close,
      sma_fast := r.sma_fast, sma_slow := r.sma_slow,
      signal := sc.1, crossover := sc.2 } :: signalsAux (seen ++ [r]) rest

/-- `generate_signals(df)`: sort by (symbol, trade_date), lag the SMAs per
symbol, classify row-wise, drop the helper columns. -/
def generate_signals (rows : List FeatureRow) : List SignalRow :=
  signalsAux [] (sortFrame FeatureRow.symbol FeatureRow.trade_date rows)

/-- A symbol's chronologically sorted series of feature rows in a frame. -/
def symbolSeriesF (rows : List FeatureRow) (s : ℕ) : List FeatureRow :=
  sortByDate FeatureRow.trade_date (rows.filter fun r => r.symbol == s)

/-- Single-symbol form of the classification scan, carrying the previous
row of the series (none at the first bar). -/
def seriesSignals : Option FeatureRow → List FeatureRow → List SignalRow
  | _, [] => []
  | prevRow, r :: rest =>
    let sc := classify (prevRow.map fun p => (p.sma_fast, p.sma_slow))
      r.sma_fast r.sma_slow
    { symbol := r.symbol, trade_date := r.trade_date, close := r.close,
      sma_fast := r.sma_fast, sma_slow := r.sma_slow,
      signal := sc.1, crossover := sc.2 } :: seriesSignals (some r) rest

/-!
## Prediction emitter (`write_next_day_prediction` in
`src/app/jobs/compute_maco.py`)

`df.sort_values(["symbol","trade_date"]).groupby("symbol").tail(1)` keeps,
in frame order, each row that is the last row of its symbol group; the kept
row is then projected to the prediction columns.
-/

/-- `groupby("symbol").tail(1)` on a frame: keep exactly the rows not
followed (later in the frame) by another row of the same symbol. -/
def keepLastPerSymbol : List SignalRow → List SignalRow
  | [] => []
  | r :: rest =>
    if rest.any fun x => x.symbol == r.symbol then keepLastPerSymbol rest
    else r :: keepLastPerSymbol rest

/-- Projection of a kept row to the prediction columns:
`predicted_signal = signal`, `predicted_direction = "UP" if
sma_fast >= sma_slow else "DOWN"`, `predicted_close = close`. -/
def predOf (r : SignalRow) : PredRow :=
  { symbol := r.symbol, trade_date := r.trade_date,
    predicted_signal := r.signal,
    predicted_direction := if r.sma_fast ≥ r.sma_slow then "UP" else "DOWN",
    predicted_close := r.close }

/-- `write_next_day_prediction(client, df)` restricted to its data
transformation (the BigQuery load and `generated_at` timestamp are I/O). -/
def write_next_day_prediction (rows : List SignalRow) : List PredRow :=
  (keepLastPerSymbol
    (sortFrame SignalRow.symbol SignalRow.trade_date rows)).map predOf

/-- A symbol's chronologically sorted series of signal rows in a frame. -/
def symbolSeriesSig (rows : List SignalRow) (s : ℕ) : List SignalRow :=
  sortByDate SignalRow.trade_date (rows.filter fun r => r.symbol == s)

/-!
## Fallback adapter (`fetch_yahoo_prices` in
`src/app/ingestion/yahoo_backfill.py`)

One HTTP attempt parses the chart payload: a guard raises `ValueError` when
the timestamp or close array is empty; otherwise one record is built per
timestamp, each parallel array indexed with
`arr[idx] if idx < len(arr) else None`; a final guard raises if the frame
is empty.  The surrounding `for attempt in range(max_retries)` loop
classifies the exception and either sleeps-and-retries or returns an empty
DataFrame.
-/

/-- One parsed bar of the Yahoo chart payload; every price field is
optional because the vendor arrays may be short or contain nulls. -/
structure YRow where
  trade_date : ℕ
  «open» : Option ℚ
  high : Option ℚ
  low : Option ℚ
  close : Option ℚ
  adj_close : Option ℚ
  volume : Option ℤ
  deriving DecidableEq, Repr, Inhabited

/-- The parallel arrays of one Yahoo chart result (after the
`quote[0]`/`adjclose[0]` and `or []` defaulting in the code). -/
structure YahooChart where
  timestamps : List ℕ
  opens : List (Option ℚ)
  highs : List (Option ℚ)
  lows : List (Option ℚ)
  closes : List (Option ℚ)
  adjcloses : List (Option ℚ)
  volumes : List (Option ℤ)
  deriving DecidableEq, Repr

/-- The record-building loop `for idx, ts in enumerate(timestamps)`:
`List.getD idx none` is `arr[idx] if idx < len(arr) else None`. -/
def parseFrom (c : YahooChart) : ℕ → List ℕ → List YRow
  | _, [] => []
  | idx, ts :: rest =>
    { trade_date := ts,
      «open» := c.opens.getD idx none,
      high := c.highs.getD idx none,
      low := c.lows.getD idx none,
      close := c.closes.getD idx none,
      adj_close := c.adjcloses.getD idx none,
      volume := c.volumes.getD idx none } :: parseFrom c (idx + 1) rest

/-- All records of one payload, one per timestamp. -/
def parseRecords (c : YahooChart) : List YRow := parseFrom c 0 c.timestamps

/-- The body of one fetch attempt after a successful HTTP response:
`Except.error ()` models a raised `ValueError` (empty candles / empty
parsed frame), `Except.ok` the `return df`. -/
def parseAttempt (c : YahooChart) : Except Unit (List YRow) :=
  if c.timestamps = [] ∨ c.closes = [] then Except.error ()
  else if parseRecords c = [] then Except.error ()
  else Except.ok (parseRecords c)

/-- Classified failure of one attempt: an HTTP error with an optional
status code (`getattr(exc.response, 'status_code', None)`), or any other
exception (timeouts, `ValueError`, JSON errors). -/
inductive FetchErr
  | http (status : Option ℕ)
  | other
  deriving DecidableEq, Repr

/-- Outcome of one attempt of the fetch loop. -/
inductive AttemptOutcome
  | success (rows : List YRow)
  | failure (e : FetchErr)
  deriving DecidableEq, Repr

/-- The `should_retry` computation of the except-block: initialized to
`True`; for an `HTTPError`, 5xx stays `True`, 404 becomes `False`, any
other non-429 status becomes `attempt < max_retries - 1`, and 429 stays
`True`.  Truthiness of the status (`if status_code and ...`) is modelled
by `getD 0` being zero. -/
def should_retry (e : FetchErr) (attempt cap : ℕ) : Bool :=
  match e with
  | .other => true
  | .http st =>
    if st.getD 0 ≠ 0 ∧ 500 ≤ st.getD 0 then true
    else if st = some 404 then false
    else if st ≠ some 429 then decide (attempt < cap - 1)
    else true

/-- The `for attempt in range(max_retries)` loop of `fetch_yahoo_prices`:
`outcomes a` is the result of attempt `a`; the returned number counts the
attempts performed.  The retry gate is the code's
`attempt < max_retries - 1 and should_retry`; both exits return an empty
frame, never an exception. -/
def runAttempts (outcomes : ℕ → AttemptOutcome) (cap : ℕ) :
    ℕ → ℕ → List YRow × ℕ
  | _, 0 => ([], 0)
  | attempt, fuel + 1 =>
    match outcomes attempt with
    | .success rows => (rows, 1)
    | .failure e =>
      if attempt < cap - 1 ∧ should_retry e attempt cap then
        let r := runAttempts outcomes cap (attempt + 1) fuel
        (r.1, r.2 + 1)
      else ([], 1)

/-- `fetch_yahoo_prices` as a function of the per-attempt outcomes
(cap = `max_retries` = 6 in the code). -/
def fetch_yahoo_prices_retry (outcomes : ℕ → AttemptOutcome) (cap : ℕ) :
    List YRow × ℕ :=
  runAttempts outcomes cap 0 cap

/-- The failure kinds §4.1 classifies as retryable: HTTP 429, HTTP 5xx,
and every non-HTTP error. -/
def retryable : FetchErr → Prop
  | .other => True
  | .http none => False
  | .http (some st) => st = 429 ∨ 500 ≤ st

instance : DecidablePred retryable := fun e =>
  match e with
  | .other => isTrue trivial
  | .http none => isFalse fun h => h
  | .http (some st) => inferInstanceAs (Decidable (st = 429 ∨ 500 ≤ st))

/-- The deterministic per-attempt outcome when the vendor always answers
with the same payload `c`: a raised `ValueError` is a non-HTTP error. -/
def attemptOutcomeOf (c : YahooChart) : AttemptOutcome :=
  match parseAttempt c with
  | Except.ok rows => AttemptOutcome.success rows
  | Except.error _ => AttemptOutcome.failure FetchErr.other

/-- `fetch_yahoo_prices` against a vendor that always returns payload `c`. -/
def fetch_yahoo_chart (c : YahooChart) (cap : ℕ) : List YRow × ℕ :=
  fetch_yahoo_prices_retry (fun _ => attemptOutcomeOf c) cap

/-!
## Primary adapter (`fetch_snapshot` in
`src/app/ingestion/finnhub_snapshot.py`)

`fetch_snapshot` performs a single HTTP GET, calls `raise_for_status()`
(so an HTTP error status raises `requests.HTTPError` out of the function),
returns `None` when the payload status is not "ok" or the timestamp array
is empty, and otherwise builds a record from the last element of each
parallel array.  It contains no retry loop.  Its caller `run` wraps the
call in `try/except` and treats any exception as "no record".
-/

/-- The parallel-array candle payload of the primary vendor. -/
structure FinnhubPayload where
  s : String
  t : List ℕ
  o : List ℚ
  h : List ℚ
  l : List ℚ
  c : List ℚ
  v : List ℤ
  deriving DecidableEq, Repr

/-- The snapshot record built from the last element of each array. -/
structure Snapshot where
  trade_date : ℕ
  «open» : ℚ
  high : ℚ
  low : ℚ
  close : ℚ
  volume : ℤ
  symbol : String
  provider : String
  deriving DecidableEq, Repr

/-- An exception escaping `fetch_snapshot`: the `requests.HTTPError` from
`raise_for_status()`, a network/timeout error from `requests.get`, or the
`IndexError`/`KeyError` from indexing `data["o"][-1]` on a bad payload. -/
inductive SnapErr
  | httpError (status : ℕ)
  | network
  | indexError
  deriving DecidableEq, Repr

/-- The vendor's response to the single HTTP GET. -/
inductive VendorResp
  | ok (data : FinnhubPayload)
  | httpFail (status : ℕ)
  | netFail
  deriving DecidableEq, Repr

/-- `fetch_snapshot(symbol)` as a function of the vendor response;
`Except.error` models an exception propagating to the caller and
`Except.ok none` the explicit `return None`. -/
def fetch_snapshot (resp : VendorResp) (start_date : ℕ) (symbol : String) :
    Except SnapErr (Option Snapshot) :=
  match resp with
  | .httpFail status => Except.error (SnapErr.httpError status)
  | .netFail => Except.error SnapErr.network
  | .ok data =>
    if data.s ≠ "ok" ∨ data.t = [] then Except.ok none
    else
      match data.o.getLast?, data.h.getLast?, data.l.getLast?,
        data.c.getLast?, data.v.getLast? with
      | some o, some h, some l, some c, some v =>
        Except.ok (some
          { trade_date := start_date, «open» := o, high := h, low := l,
            close := c, volume := v, symbol := symbol,
            provider := "finnhub" })
      | _, _, _, _, _ => Except.error SnapErr.indexError

/-- The per-symbol `try/except` around `fetch_snapshot` in `run`: any
exception is caught and logged and the record stays `None`. -/
def snapshotRecord (resp : VendorResp) (start_date : ℕ) (symbol : String) :
    Option Snapshot :=
  match fetch_snapshot resp start_date symbol with
  | Except.error _ => none
  | Except.ok r => r

/-- A vendor response that is an HTTP/network error, a non-OK payload
status, or an empty timestamp series (the cases quantified by claim C4). -/
def isBadResponse : VendorResp → Bool
  | .httpFail _ => true
  | .netFail => true
  | .ok d => d.s != "ok" || d.t.isEmpty

/-!
## Ingestion orchestrators

`finnhub_snapshot.run` accumulates, per symbol, the primary record if any,
else the fallback record if any; `yahoo_backfill.run` accumulates each
symbol's non-empty fetched frame.  Both call the warehouse load exactly
once, on the concatenated batch, and only when the batch is non-empty.
-/

/-- Per-symbol record selection in `finnhub_snapshot.run`: the primary
record if present (after the try/except), else the fallback's. -/
def symbol_record (primary fallback : Option Snapshot) : Option Snapshot :=
  match primary with
  | some r => some r
  | none => fallback

/-- `finnhub_snapshot.run` as a function from each symbol's
(primary, fallback) results to the batch handed to `load_to_prices_1d`
(`none` = the load is never called). -/
def finnhub_run (syms : List (Option Snapshot × Option Snapshot)) :
    Option (List Snapshot) :=
  let frames := syms.filterMap fun p => symbol_record p.1 p.2
  if frames.isEmpty then none else some frames

/-- `yahoo_backfill.run` as a function from each symbol's fetched frame to
the batch handed to `load_to_prices_1d` (`none` = no load call; empty
frames are skipped with `continue`). -/
def yahoo_run (fetched : List (List YRow)) : Option (List YRow) :=
  let frames := fetched.filter fun df => !df.isEmpty
  if frames.isEmpty then none else some frames.flatten

end Maco

open Maco

section SortLemmas

variable {α : Type} (sym dat : α → ℕ)

theorem distinctKeys_pairwise {l : List α} (h : distinctKeys sym dat l) :
    l.Pairwise fun a b => (sym a, dat a) ≠ (sym b, dat b) := by
  have := (List.pairwise_map).mp h
  exact this

theorem sorted_lexLt_of_sorted_of_nodup {l : List α}
    (hs : l.Pairwise (lexLe sym dat))
    (hk : l.Pairwise fun a b => (sym a, dat a) ≠ (sym b, dat b)) :
    l.Pairwise (lexLt sym dat) := by
  have hand := hs.and hk
  refine hand.imp ?_
  rintro a b ⟨hle, hne⟩
  rcases hle with h | ⟨h1, h2⟩
  · exact Or.inl h
  · refine Or.inr ⟨h1, lt_of_le_of_ne h2 ?_⟩
    intro hd
    exact hne (by rw [h1, hd])

/-- Sorting by (symbol, trade_date) is canonical on frames with distinct
keys: any two permutations of the same rows sort to the same list. -/
theorem sortFrame_perm_eq {l1 l2 : List α} (hp : l1.Perm l2)
    (hk : distinctKeys sym dat l1) :
    sortFrame sym dat l1 = sortFrame sym dat l2 := by
  have hperm1 : List.Perm (sortFrame sym dat l1) l1 := List.perm_insertionSort _ l1
  have hperm2 : List.Perm (sortFrame sym dat l2) l2 := List.perm_insertionSort _ l2
  have hd1 : distinctKeys sym dat (sortFrame sym dat l1) :=
    ((hperm1.map fun a => (sym a, dat a)).nodup_iff).mpr hk
  have hd2 : distinctKeys sym dat (sortFrame sym dat l2) :=
    (((hperm2.trans hp.symm).map fun a => (sym a, dat a)).nodup_iff).mpr hk
  have hk1 := distinctKeys_pairwise sym dat hd1
  have hk2 := distinctKeys_pairwise sym dat hd2
  have hs1 : (sortFrame sym dat l1).Pairwise (lexLe sym dat) :=
    List.sorted_insertionSort _ l1
  have hs2 : (sortFrame sym dat l2).Pairwise (lexLe sym dat) :=
    List.sorted_insertionSort _ l2
  exact List.eq_of_perm_of_sorted
    (hperm1.trans (hp.trans hperm2.symm))
    (sorted_lexLt_of_sorted_of_nodup sym dat hs1 hk1)
    (sorted_lexLt_of_sorted_of_nodup sym dat hs2 hk2)

/-- Restricting the (symbol, trade_date)-sorted frame to one symbol gives
exactly that symbol's rows sorted chronologically. -/
theorem sortFrame_filter {l : List α} (hk : distinctKeys sym dat l) (s : ℕ) :
    (sortFrame sym dat l).filter (fun a => sym a == s) =
      sortByDate dat (l.filter fun a => sym a == s) := by
  set A := (sortFrame sym dat l).filter (fun a => sym a == s) with hA
  set B := sortByDate dat (l.filter fun a => sym a == s) with hB
  have hpermS : List.Perm (sortFrame sym dat l) l := List.perm_insertionSort _ l
  have hpermA : List.Perm A (l.filter fun a => sym a == s) := hpermS.filter _
  have hpermB : List.Perm B (l.filter fun a => sym a == s) :=
    List.perm_insertionSort _ _
  -- every member of A (and of B) has symbol s
  have hmemA : ∀ a ∈ A, sym a = s := by
    intro a ha
    have h1 : (sym a == s) = true := (List.mem_filter.mp ha).2
    exact eq_of_beq h1
  have hmemB : ∀ a ∈ B, sym a = s := by
    intro a ha
    have h1 : (sym a == s) = true := (List.mem_filter.mp (hpermB.subset ha)).2
    exact eq_of_beq h1
  -- A is sorted by date (lexLe restricted to a fixed symbol is dateLe)
  have hsortA : A.Pairwise (dateLe dat) := by
    have hs : (sortFrame sym dat l).Pairwise (lexLe sym dat) :=
      List.sorted_insertionSort _ l
    have hsub : A.Pairwise (lexLe sym dat) :=
      hs.sublist (List.filter_sublist _)
    refine List.Pairwise.imp_of_mem ?_ hsub
    intro a b ha hb hab
    rcases hab with h | ⟨_, h2⟩
    · exact absurd ((hmemA a ha).trans (hmemA b hb).symm) (Nat.ne_of_lt h)
    · exact h2
  have hsortB : B.Pairwise (dateLe dat) := List.sorted_insertionSort _ _
  -- dates are pairwise distinct among the symbol-s rows
  have hkfilter : distinctKeys sym dat (l.filter fun a => sym a == s) :=
    hk.sublist ((List.filter_sublist _).map _)
  have hdA : distinctKeys sym dat A :=
    ((hpermA.map fun a => (sym a, dat a)).nodup_iff).mpr hkfilter
  have hdB : distinctKeys sym dat B :=
    ((hpermB.map fun a => (sym a, dat a)).nodup_iff).mpr hkfilter
  have hkA := distinctKeys_pairwise sym dat hdA
  have hkB := distinctKeys_pairwise sym dat hdB
  -- upgrade both to strict date sortedness
  have hstrictA : A.Pairwise (dateLt dat) := by
    refine ((hsortA.and hkA).imp_of_mem ?_)
    rintro a b ha hb ⟨hle, hne⟩
    refine lt_of_le_of_ne hle ?_
    intro hd
    exact hne (by rw [hmemA a ha, hmemA b hb, hd])
  have hstrictB : B.Pairwise (dateLt dat) := by
    refine ((hsortB.and hkB).imp_of_mem ?_)
    rintro a b ha hb ⟨hle, hne⟩
    refine lt_of_le_of_ne hle ?_
    intro hd
    exact hne (by rw [hmemB a ha, hmemB b hb, hd])
  exact List.eq_of_perm_of_sorted (hpermA.trans hpermB.symm) hstrictA hstrictB


end SortLemmas

theorem featuresAux_filter (wf ws s : ℕ) (seen l : List PriceRow) :
    (featuresAux wf ws seen l).filter (fun r => r.symbol == s) =
      seriesFeatures wf ws
        ((seen.filter fun x => x.symbol == s).map PriceRow.close)
        (l.filter fun x => x.symbol == s) := by
  induction l generalizing seen with
  | nil => rfl
  | cons r rest ih =>
    have hstep := ih (seen ++ [r])
    by_cases hs : r.symbol = s
    · have hbeq : (r.symbol == s) = true := beq_iff_eq.mpr hs
      have hsame : (fun x : PriceRow => x.symbol == r.symbol) =
          (fun x : PriceRow => x.symbol == s) := by
        funext x
        rw [hs]
      have hseen1 : (seen ++ [r]).filter (fun x => x.symbol == s) =
          seen.filter (fun x => x.symbol == s) ++ [r] := by
        simp [List.filter_append, hbeq]
      simp only [featuresAux, seriesFeatures, List.filter_cons, hbeq,
        hsame, hstep, hseen1, List.map_append, List.map_cons, List.map_nil,
        if_true]
    · have hbeq : (r.symbol == s) = false := by
        simp [hs]
      have hseen0 : (seen ++ [r]).filter (fun x => x.symbol == s) =
          seen.filter (fun x => x.symbol == s) := by
        simp [List.filter_append, hbeq]
      simp only [featuresAux, List.filter_cons, hbeq, hstep, hseen0,
        Bool.false_eq_true, if_false]

/-- Closed form of the single-symbol recursion: the i-th bar receives the
rolling mean of the first i+1 closes, shifted by whatever `prev` history
is already in the accumulator. -/
theorem seriesFeatures_eq_map (wf ws : ℕ) (prev : List ℚ)
    (l : List PriceRow) :
    seriesFeatures wf ws prev l =
      (List.range l.length).map fun i =>
        { symbol := (l.getD i default).symbol,
          trade_date := (l.getD i default).trade_date,
          close := (l.getD i default).close,
          sma_fast := rollingMeanLast wf
            (prev ++ (l.map PriceRow.close).take (i + 1)),
          sma_slow := rollingMeanLast ws
            (prev ++ (l.map PriceRow.close).take (i + 1)) } := by
  induction l generalizing prev with
  | nil => rfl
  | cons r rest ih =>
    have htail := ih (prev ++ [r.close])
    rw [List.length_cons, List.range_succ_eq_map, List.map_cons,
      List.map_map]
    simp only [seriesFeatures]
    rw [htail]
    congr 1
    · simp

theorem length_windowLast (w : ℕ) (xs : List ℚ) :
    (windowLast w xs).length = min w xs.length := by
  simp [windowLast]
  omega


/-- C3: for every attempt index and every jitter value in [0, base) with the
code's constants base = 10 and max_delay = 120, the code's double-capped
backoff expression equals the spec's single-capped formula. -/
theorem C3_backoff_delay_eq (attempt : ℕ) (jitter : ℚ)
    (h0 : 0 ≤ jitter) (hlt : jitter < 10) :
    Maco.code_delay 10 120 attempt jitter =
      Maco.spec_delay 10 120 attempt jitter := by
  unfold Maco.code_delay Maco.spec_delay
  rcases le_total ((10 : ℚ) * 2 ^ attempt) 120 with hle | hge
  · rw [min_eq_left hle]
  · rw [min_eq_right hge]
    have h1 : (120 : ℚ) ≤ 120 + jitter := by linarith
    have h2 : (120 : ℚ) ≤ 10 * 2 ^ attempt + jitter := by linarith
    rw [min_eq_right h1, min_eq_right h2]

/-- Witness for C3 at attempt 4 (where the inner cap bites) and jitter 7/2. -/
theorem C3_backoff_delay_eq_wit :
    (0 : ℚ) ≤ 7 / 2 ∧ (7 / 2 : ℚ) < 10 ∧
      Maco.code_delay 10 120 4 (7 / 2) = Maco.spec_delay 10 120 4 (7 / 2) :=
  ⟨by norm_num, by norm_num,
    C3_backoff_delay_eq 4 (7 / 2) (by norm_num) (by norm_num)⟩

theorem rollingMeanLast_take (w i : ℕ) (xs : List ℚ) (hi : i < xs.length) :
    rollingMeanLast w (xs.take (i + 1)) =
      ((xs.take (i + 1)).drop (i + 1 - w)).sum / ((min w (i + 1) : ℕ) : ℚ) := by
  have hlen : (xs.take (i + 1)).length = i + 1 := by
    rw [List.length_take]
    omega
  unfold rollingMeanLast windowLast
  rw [hlen, List.length_drop, hlen]
  have hmin : i + 1 - (i + 1 - w) = min w (i + 1) := by omega
  rw [hmin]

/-- C1: on a frame whose (symbol, trade_date) pairs are pairwise distinct
(and with every close present, which the ℚ-valued model assumes), for all
windows wf, ws ≥ 1 and every symbol, `compute_maco_features` returns for
that symbol exactly its chronologically sorted bars, the i-th of which
(0-indexed; the spec's 1-indexed i is i+1) carries as `sma_fast`/`sma_slow`
the arithmetic mean of `close` over the trailing min(w, i+1) bars of that
same symbol: partial windows at the start of history are defined, and no
bar of another symbol contributes. -/
theorem C1_rolling_sma_spec (frame : List PriceRow) (wf ws : ℕ)
    (hk : distinctKeys PriceRow.symbol PriceRow.trade_date frame)
    (hwf : 1 ≤ wf) (hws : 1 ≤ ws) (s : ℕ) :
    (compute_maco_features frame wf ws).filter (fun r => r.symbol == s) =
      (List.range (symbolSeries frame s).length).map fun i =>
        { symbol := ((symbolSeries frame s).getD i default).symbol,
          trade_date := ((symbolSeries frame s).getD i default).trade_date,
          close := ((symbolSeries frame s).getD i default).close,
          sma_fast := ((((symbolSeries frame s).map PriceRow.close).take
              (i + 1)).drop (i + 1 - wf)).sum / ((min wf (i + 1) : ℕ) : ℚ),
          sma_slow := ((((symbolSeries frame s).map PriceRow.close).take
              (i + 1)).drop (i + 1 - ws)).sum /
              ((min ws (i + 1) : ℕ) : ℚ) } := by
  unfold compute_maco_features
  rw [featuresAux_filter]
  rw [sortFrame_filter PriceRow.symbol PriceRow.trade_date hk s]
  have hsym : sortByDate PriceRow.trade_date
      (frame.filter fun r => r.symbol == s) = symbolSeries frame s := rfl
  rw [hsym]
  simp only [List.filter_nil, List.map_nil]
  rw [seriesFeatures_eq_map]
  refine List.map_congr_left ?_
  intro i hi
  have hi2 : i < ((symbolSeries frame s).map PriceRow.close).length := by
    rw [List.length_map]
    exact List.mem_range.mp hi
  simp only [List.nil_append, FeatureRow.mk.injEq]
  exact ⟨trivial, trivial, trivial, rollingMeanLast_take wf i _ hi2,
    rollingMeanLast_take ws i _ hi2⟩

theorem C1_rolling_sma_spec_wit :
    distinctKeys PriceRow.symbol PriceRow.trade_date
      ([⟨2, 1, 100⟩, ⟨1, 2, 12⟩, ⟨1, 1, 10⟩, ⟨2, 2, 50⟩, ⟨1, 3, 14⟩] :
        List PriceRow) ∧
    1 ≤ 2 ∧ 1 ≤ 3 ∧
    (compute_maco_features
        ([⟨2, 1, 100⟩, ⟨1, 2, 12⟩, ⟨1, 1, 10⟩, ⟨2, 2, 50⟩, ⟨1, 3, 14⟩] :
          List PriceRow) 2 3).filter (fun r => r.symbol == 1) =
      (List.range (symbolSeries
          ([⟨2, 1, 100⟩, ⟨1, 2, 12⟩, ⟨1, 1, 10⟩, ⟨2, 2, 50⟩, ⟨1, 3, 14⟩] :
            List PriceRow) 1).length).map fun i =>
        { symbol := ((symbolSeries
              ([⟨2, 1, 100⟩, ⟨1, 2, 12⟩, ⟨1, 1, 10⟩, ⟨2, 2, 50⟩,
                ⟨1, 3, 14⟩] : List PriceRow) 1).getD i default).symbol,
          trade_date := ((symbolSeries
              ([⟨2, 1, 100⟩, ⟨1, 2, 12⟩, ⟨1, 1, 10⟩, ⟨2, 2, 50⟩,
                ⟨1, 3, 14⟩] : List PriceRow) 1).getD i default).trade_date,
          close := ((symbolSeries
              ([⟨2, 1, 100⟩, ⟨1, 2, 12⟩, ⟨1, 1, 10⟩, ⟨2, 2, 50⟩,
                ⟨1, 3, 14⟩] : List PriceRow) 1).getD i default).close,
          sma_fast := ((((symbolSeries
              ([⟨2, 1, 100⟩, ⟨1, 2, 12⟩, ⟨1, 1, 10⟩, ⟨2, 2, 50⟩,
                ⟨1, 3, 14⟩] : List PriceRow) 1).map PriceRow.close).take
              (i + 1)).drop (i + 1 - 2)).sum / ((min 2 (i + 1) : ℕ) : ℚ),
          sma_slow := ((((symbolSeries
              ([⟨2, 1, 100⟩, ⟨1, 2, 12⟩, ⟨1, 1, 10⟩, ⟨2, 2, 50⟩,
                ⟨1, 3, 14⟩] : List PriceRow) 1).map PriceRow.close).take
              (i + 1)).drop (i + 1 - 3)).sum /
              ((min 3 (i + 1) : ℕ) : ℚ) } :=
  ⟨by decide, by decide, by decide,
    C1_rolling_sma_spec
      ([⟨2, 1, 100⟩, ⟨1, 2, 12⟩, ⟨1, 1, 10⟩, ⟨2, 2, 50⟩, ⟨1, 3, 14⟩] :
        List PriceRow) 2 3 (by decide) (by decide) (by decide) 1⟩

theorem signalsAux_filter (s : ℕ) (seen l : List FeatureRow) :
    (signalsAux seen l).filter (fun r => r.symbol == s) =
      seriesSignals ((seen.filter fun x => x.symbol == s).getLast?)
        (l.filter fun x => x.symbol == s) := by
  induction l generalizing seen with
  | nil => rfl
  | cons r rest ih =>
    have hstep := ih (seen ++ [r])
    by_cases hs : r.symbol = s
    · have hbeq : (r.symbol == s) = true := beq_iff_eq.mpr hs
      have hsame : (fun x : FeatureRow => x.symbol == r.symbol) =
          (fun x : FeatureRow => x.symbol == s) := by
        funext x
        rw [hs]
      have hseen1 : (seen ++ [r]).filter (fun x => x.symbol == s) =
          seen.filter (fun x => x.symbol == s) ++ [r] := by
        simp [List.filter_append, hbeq]
      simp only [signalsAux, seriesSignals, List.filter_cons, hbeq,
        hsame, hstep, hseen1, List.getLast?_concat, if_true]
    · have hbeq : (r.symbol == s) = false := by
        simp [hs]
      have hseen0 : (seen ++ [r]).filter (fun x => x.symbol == s) =
          seen.filter (fun x => x.symbol == s) := by
        simp [List.filter_append, hbeq]
      simp only [signalsAux, List.filter_cons, hbeq, hstep, hseen0,
        Bool.false_eq_true, if_false]

theorem seriesSignals_eq_map (p0 : Option FeatureRow)
    (l : List FeatureRow) :
    seriesSignals p0 l =
      (List.range l.length).map fun i =>
        let r := l.getD i default
        let p := if i = 0 then p0 else some (l.getD (i - 1) default)
        let sc := classify (p.map fun q => (q.sma_fast, q.sma_slow))
          r.sma_fast r.sma_slow
        { symbol := r.symbol, trade_date := r.trade_date, close := r.close,
          sma_fast := r.sma_fast, sma_slow := r.sma_slow,
          signal := sc.1, crossover := sc.2 } := by
  induction l generalizing p0 with
  | nil => rfl
  | cons r rest ih =>
    rw [List.length_cons, List.range_succ_eq_map, List.map_cons,
      List.map_map]
    simp only [seriesSignals]
    rw [ih (some r)]
    congr 1
    refine List.map_congr_left ?_
    intro i _
    rcases i with _ | j
    · simp
    · simp

/-- C2: on a frame of feature rows with pairwise-distinct
(symbol, trade_date) keys, `generate_signals` classifies each bar of each
symbol's chronologically sorted series from that bar's and the previous
same-symbol bar's (sma_fast, sma_slow) only: the first bar yields
(HOLD, NONE); otherwise prev_fast ≤ prev_slow and fast > slow yields
(BUY, GOLDEN), prev_fast ≥ prev_slow and fast < slow yields (SELL, DEAD),
and every other case — including a transition into equality — yields
(HOLD, NONE).  A tie prev_fast = prev_slow satisfies both the ≤ and the ≥
leg, so divergence out of a tie in either direction is a crossover. -/
theorem C2_crossover_classification (rows : List FeatureRow)
    (hk : distinctKeys FeatureRow.symbol FeatureRow.trade_date rows)
    (s : ℕ) :
    (generate_signals rows).filter (fun r => r.symbol == s) =
      (List.range (symbolSeriesF rows s).length).map fun i =>
        let r := (symbolSeriesF rows s).getD i default
        let p := (symbolSeriesF rows s).getD (i - 1) default
        { symbol := r.symbol, trade_date := r.trade_date, close := r.close,
          sma_fast := r.sma_fast, sma_slow := r.sma_slow,
          signal := if i = 0 then "HOLD"
            else if p.sma_fast ≤ p.sma_slow ∧ r.sma_fast > r.sma_slow then
              "BUY"
            else if p.sma_fast ≥ p.sma_slow ∧ r.sma_fast < r.sma_slow then
              "SELL"
            else "HOLD",
          crossover := if i = 0 then "NONE"
            else if p.sma_fast ≤ p.sma_slow ∧ r.sma_fast > r.sma_slow then
              "GOLDEN"
            else if p.sma_fast ≥ p.sma_slow ∧ r.sma_fast < r.sma_slow then
              "DEAD"
            else "NONE" } := by
  unfold generate_signals
  rw [signalsAux_filter]
  rw [sortFrame_filter FeatureRow.symbol FeatureRow.trade_date hk s]
  have hsym : sortByDate FeatureRow.trade_date
      (rows.filter fun r => r.symbol == s) = symbolSeriesF rows s := rfl
  rw [hsym]
  simp only [List.filter_nil, List.getLast?_nil]
  rw [seriesSignals_eq_map]
  refine List.map_congr_left ?_
  intro i _
  rcases i with _ | j
  · simp [classify]
  · simp only [Nat.succ_ne_zero, if_false, Option.map_some, Option.map_some',
      classify, Nat.add_sub_cancel]
    split_ifs <;> rfl

theorem C2_crossover_classification_wit :
    distinctKeys FeatureRow.symbol FeatureRow.trade_date
      ([⟨1, 1, 5, 1, 1⟩, ⟨1, 2, 6, 2, 1⟩, ⟨1, 3, 4, 0, 1⟩,
        ⟨1, 4, 5, 1, 1⟩] : List FeatureRow) ∧
    (generate_signals
        ([⟨1, 1, 5, 1, 1⟩, ⟨1, 2, 6, 2, 1⟩, ⟨1, 3, 4, 0, 1⟩,
          ⟨1, 4, 5, 1, 1⟩] : List FeatureRow)).filter
        (fun r => r.symbol == 1) =
      (List.range (symbolSeriesF
          ([⟨1, 1, 5, 1, 1⟩, ⟨1, 2, 6, 2, 1⟩, ⟨1, 3, 4, 0, 1⟩,
            ⟨1, 4, 5, 1, 1⟩] : List FeatureRow) 1).length).map fun i =>
        let r := (symbolSeriesF
          ([⟨1, 1, 5, 1, 1⟩, ⟨1, 2, 6, 2, 1⟩, ⟨1, 3, 4, 0, 1⟩,
            ⟨1, 4, 5, 1, 1⟩] : List FeatureRow) 1).getD i default
        let p := (symbolSeriesF
          ([⟨1, 1, 5, 1, 1⟩, ⟨1, 2, 6, 2, 1⟩, ⟨1, 3, 4, 0, 1⟩,
            ⟨1, 4, 5, 1, 1⟩] : List FeatureRow) 1).getD (i - 1) default
        { symbol := r.symbol, trade_date := r.trade_date, close := r.close,
          sma_fast := r.sma_fast, sma_slow := r.sma_slow,
          signal := if i = 0 then "HOLD"
            else if p.sma_fast ≤ p.sma_slow ∧ r.sma_fast > r.sma_slow then
              "BUY"
            else if p.sma_fast ≥ p.sma_slow ∧ r.sma_fast < r.sma_slow then
              "SELL"
            else "HOLD",
          crossover := if i = 0 then "NONE"
            else if p.sma_fast ≤ p.sma_slow ∧ r.sma_fast > r.sma_slow then
              "GOLDEN"
            else if p.sma_fast ≥ p.sma_slow ∧ r.sma_fast < r.sma_slow then
              "DEAD"
            else "NONE" } :=
  ⟨by decide,
    C2_crossover_classification
      ([⟨1, 1, 5, 1, 1⟩, ⟨1, 2, 6, 2, 1⟩, ⟨1, 3, 4, 0, 1⟩,
        ⟨1, 4, 5, 1, 1⟩] : List FeatureRow) (by decide) 1⟩

/-- C10: the feature/signal pipeline is order-insensitive — both
`compute_maco_features` and `generate_signals` begin by re-sorting by
(symbol, trade_date) and resetting the index, so on frames with pairwise
distinct (symbol, trade_date) keys any permutation of the input rows
yields exactly the same output frame. -/
theorem C10_pipeline_order_insensitive (l1 l2 : List PriceRow) (wf ws : ℕ)
    (hp : l1.Perm l2)
    (hk : distinctKeys PriceRow.symbol PriceRow.trade_date l1) :
    generate_signals (compute_maco_features l1 wf ws) =
      generate_signals (compute_maco_features l2 wf ws) ∧
    compute_maco_features l1 wf ws = compute_maco_features l2 wf ws := by
  have h : compute_maco_features l1 wf ws = compute_maco_features l2 wf ws := by
    unfold compute_maco_features
    rw [sortFrame_perm_eq PriceRow.symbol PriceRow.trade_date hp hk]
  exact ⟨by rw [h], h⟩

theorem C10_pipeline_order_insensitive_wit :
    (([⟨1, 2, 3⟩, ⟨2, 1, 7⟩, ⟨1, 1, 4⟩] : List PriceRow).Perm
      ([⟨1, 1, 4⟩, ⟨1, 2, 3⟩, ⟨2, 1, 7⟩] : List PriceRow)) ∧
    distinctKeys PriceRow.symbol PriceRow.trade_date
      ([⟨1, 2, 3⟩, ⟨2, 1, 7⟩, ⟨1, 1, 4⟩] : List PriceRow) ∧
    (generate_signals (compute_maco_features
        ([⟨1, 2, 3⟩, ⟨2, 1, 7⟩, ⟨1, 1, 4⟩] : List PriceRow) 10 20) =
      generate_signals (compute_maco_features
        ([⟨1, 1, 4⟩, ⟨1, 2, 3⟩, ⟨2, 1, 7⟩] : List PriceRow) 10 20) ∧
    compute_maco_features
        ([⟨1, 2, 3⟩, ⟨2, 1, 7⟩, ⟨1, 1, 4⟩] : List PriceRow) 10 20 =
      compute_maco_features
        ([⟨1, 1, 4⟩, ⟨1, 2, 3⟩, ⟨2, 1, 7⟩] : List PriceRow) 10 20) :=
  ⟨by decide, by decide,
    C10_pipeline_order_insensitive _ _ 10 20 (by decide) (by decide)⟩

theorem keepLast_filter (s : ℕ) (l : List SignalRow) :
    (keepLastPerSymbol l).filter (fun r => r.symbol == s) =
      ((l.filter fun r => r.symbol == s).getLast?).toList := by
  induction l with
  | nil => rfl
  | cons r rest ih =>
    by_cases hany : (rest.any fun x => x.symbol == r.symbol) = true
    · simp only [keepLastPerSymbol, hany, if_true]
      rw [ih]
      by_cases hs : r.symbol = s
      · have hbeq : (r.symbol == s) = true := beq_iff_eq.mpr hs
        obtain ⟨x, hx, hxs⟩ := List.any_eq_true.mp hany
        have hxmem : x ∈ rest.filter fun y => y.symbol == s := by
          refine List.mem_filter.mpr ⟨hx, ?_⟩
          rw [← hs]
          exact hxs
        obtain ⟨y, ys, hys⟩ := List.exists_cons_of_ne_nil
          (List.ne_nil_of_mem hxmem)
        rw [List.filter_cons_of_pos (by exact hbeq), hys,
          List.getLast?_cons_cons]
      · have hbeq : (r.symbol == s) = false := by simp [hs]
        rw [List.filter_cons_of_neg (by simp [hbeq])]
    · simp only [keepLastPerSymbol, hany, if_false, Bool.false_eq_true]
      by_cases hs : r.symbol = s
      · have hbeq : (r.symbol == s) = true := beq_iff_eq.mpr hs
        have hrest : rest.filter (fun y => y.symbol == s) = [] := by
          rw [List.filter_eq_nil_iff]
          intro x hx
          intro hxs
          apply hany
          refine List.any_eq_true.mpr ⟨x, hx, ?_⟩
          rw [hs]
          exact hxs
        have hrest2 : (keepLastPerSymbol rest).filter
            (fun y => y.symbol == s) = [] := by
          rw [ih, hrest]
          rfl
        rw [List.filter_cons_of_pos (by exact hbeq),
          List.filter_cons_of_pos (by exact hbeq), hrest, hrest2]
        rfl
      · have hbeq : (r.symbol == s) = false := by simp [hs]
        rw [List.filter_cons_of_neg (by simp [hbeq]),
          List.filter_cons_of_neg (by simp [hbeq])]
        exact ih

theorem le_date_getLast {α : Type} (dat : α → ℕ) :
    ∀ (l : List α) (last : α), l.Pairwise (dateLe dat) →
      l.getLast? = some last → ∀ a ∈ l, dat a ≤ dat last := by
  intro l
  induction l with
  | nil =>
    intro last _ h
    cases h
  | cons x xs ih =>
    intro last hp hl a ha
    cases xs with
    | nil =>
      have hx : last = x := by
        have : some x = some last := hl
        exact (Option.some.injEq _ _ ▸ this).symm
      have hax : a = x := by
        rcases List.mem_cons.mp ha with h | h
        · exact h
        · cases h
      rw [hax, hx]
    | cons y ys =>
      rw [List.getLast?_cons_cons] at hl
      rcases List.mem_cons.mp ha with rfl | h2
      · have hmem : last ∈ y :: ys := by
          obtain ⟨hne, heq⟩ := List.mem_getLast?_eq_getLast hl
          rw [heq]
          exact List.getLast_mem hne
        exact (List.pairwise_cons.mp hp).1 last hmem
      · exact ih last (List.pairwise_cons.mp hp).2 hl a h2

/-- C9: on a non-empty frame of classified signal rows with distinct
(symbol, trade_date) keys, `write_next_day_prediction` emits exactly one
prediction row per symbol present — none for absent symbols — derived from
that symbol's row with the latest trade_date: `predicted_signal` copies
that row's signal, `predicted_direction` is UP iff sma_fast ≥ sma_slow
and DOWN otherwise, `predicted_close` copies that row's close. -/
theorem C9_prediction_emitter (rows : List SignalRow)
    (hk : distinctKeys SignalRow.symbol SignalRow.trade_date rows)
    (s : ℕ) :
    ((write_next_day_prediction rows).filter (fun p => p.symbol == s) =
      ((symbolSeriesSig rows s).getLast?.toList).map fun last =>
        { symbol := last.symbol, trade_date := last.trade_date,
          predicted_signal := last.signal,
          predicted_direction :=
            if last.sma_fast ≥ last.sma_slow then "UP" else "DOWN",
          predicted_close := last.close }) ∧
    ∀ last, (symbolSeriesSig rows s).getLast? = some last →
      ∀ r ∈ rows, r.symbol = s → r.trade_date ≤ last.trade_date := by
  constructor
  · unfold write_next_day_prediction
    rw [List.filter_map]
    have hcomp : ((fun q : PredRow => q.symbol == s) ∘ predOf) =
        (fun r : SignalRow => r.symbol == s) := rfl
    rw [hcomp]
    rw [keepLast_filter]
    rw [sortFrame_filter SignalRow.symbol SignalRow.trade_date hk s]
    rfl
  · intro last hl r hr hrs
    have hsorted : (symbolSeriesSig rows s).Pairwise
        (dateLe SignalRow.trade_date) := List.sorted_insertionSort _ _
    have hmem : r ∈ symbolSeriesSig rows s := by
      have h1 : r ∈ rows.filter (fun q => q.symbol == s) :=
        List.mem_filter.mpr ⟨hr, beq_iff_eq.mpr hrs⟩
      exact (List.perm_insertionSort _ _).symm.subset h1
    exact le_date_getLast SignalRow.trade_date _ last hsorted hl r hmem

theorem C9_prediction_emitter_wit :
    distinctKeys SignalRow.symbol SignalRow.trade_date
      ([⟨1, 1, 10, 1, 2, "HOLD", "NONE"⟩, ⟨1, 2, 12, 3, 2, "BUY", "GOLDEN"⟩,
        ⟨2, 1, 7, 1, 1, "HOLD", "NONE"⟩] : List SignalRow) ∧
    (((write_next_day_prediction
        ([⟨1, 1, 10, 1, 2, "HOLD", "NONE"⟩, ⟨1, 2, 12, 3, 2, "BUY", "GOLDEN"⟩,
          ⟨2, 1, 7, 1, 1, "HOLD", "NONE"⟩] : List SignalRow)).filter
        (fun p => p.symbol == 1) =
      ((symbolSeriesSig
          ([⟨1, 1, 10, 1, 2, "HOLD", "NONE"⟩, ⟨1, 2, 12, 3, 2, "BUY", "GOLDEN"⟩,
            ⟨2, 1, 7, 1, 1, "HOLD", "NONE"⟩] : List SignalRow)
          1).getLast?.toList).map fun last =>
        { symbol := last.symbol, trade_date := last.trade_date,
          predicted_signal := last.signal,
          predicted_direction :=
            if last.sma_fast ≥ last.sma_slow then "UP" else "DOWN",
          predicted_close := last.close }) ∧
    ∀ last, (symbolSeriesSig
        ([⟨1, 1, 10, 1, 2, "HOLD", "NONE"⟩, ⟨1, 2, 12, 3, 2, "BUY", "GOLDEN"⟩,
          ⟨2, 1, 7, 1, 1, "HOLD", "NONE"⟩] : List SignalRow)
        1).getLast? = some last →
      ∀ r ∈ ([⟨1, 1, 10, 1, 2, "HOLD", "NONE"⟩,
          ⟨1, 2, 12, 3, 2, "BUY", "GOLDEN"⟩,
          ⟨2, 1, 7, 1, 1, "HOLD", "NONE"⟩] : List SignalRow),
        r.symbol = 1 → r.trade_date ≤ last.trade_date) :=
  ⟨by decide,
    C9_prediction_emitter
      ([⟨1, 1, 10, 1, 2, "HOLD", "NONE"⟩, ⟨1, 2, 12, 3, 2, "BUY", "GOLDEN"⟩,
        ⟨2, 1, 7, 1, 1, "HOLD", "NONE"⟩] : List SignalRow) (by decide) 1⟩

theorem parseFrom_length (c : YahooChart) :
    ∀ (k : ℕ) (ts : List ℕ), (parseFrom c k ts).length = ts.length := by
  intro k ts
  induction ts generalizing k with
  | nil => rfl
  | cons t rest ih =>
    simp only [parseFrom, List.length_cons, ih]

theorem parseFrom_getD (c : YahooChart) :
    ∀ (ts : List ℕ) (k i : ℕ), i < ts.length →
      (parseFrom c k ts).getD i default =
        { trade_date := ts.getD i 0,
          «open» := c.opens.getD (k + i) none,
          high := c.highs.getD (k + i) none,
          low := c.lows.getD (k + i) none,
          close := c.closes.getD (k + i) none,
          adj_close := c.adjcloses.getD (k + i) none,
          volume := c.volumes.getD (k + i) none } := by
  intro ts
  induction ts with
  | nil =>
    intro k i h
    cases h
  | cons t rest ih =>
    intro k i h
    rcases i with _ | j
    · simp [parseFrom]
    · have hj : j < rest.length := by
        simpa using Nat.lt_of_succ_lt_succ h
      have hrec := ih (k + 1) j hj
      simp only [parseFrom, List.getD_cons_succ, hrec]
      have harith : k + 1 + j = k + (j + 1) := by omega
      rw [harith]

theorem parseRecords_length (c : YahooChart) :
    (parseRecords c).length = c.timestamps.length :=
  parseFrom_length c 0 c.timestamps

theorem parseRecords_getD (c : YahooChart) (i : ℕ)
    (h : i < c.timestamps.length) :
    (parseRecords c).getD i default =
      { trade_date := c.timestamps.getD i 0,
        «open» := c.opens.getD i none,
        high := c.highs.getD i none,
        low := c.lows.getD i none,
        close := c.closes.getD i none,
        adj_close := c.adjcloses.getD i none,
        volume := c.volumes.getD i none } := by
  have := parseFrom_getD c c.timestamps 0 i h
  simpa using this

theorem parseAttempt_ok (c : YahooChart) (ht : c.timestamps ≠ [])
    (hc : c.closes ≠ []) :
    parseAttempt c = Except.ok (parseRecords c) := by
  unfold parseAttempt
  rw [if_neg, if_neg]
  · intro hnil
    apply ht
    have := parseRecords_length c
    rw [hnil] at this
    exact List.length_eq_zero.mp this.symm
  · rintro (h | h)
    · exact ht h
    · exact hc h

/-- C5 counterexample: a payload whose single close entry is null is parsed
and returned by the fetch attempt — the bar with a missing close is stored,
not discarded, refuting the claim that every returned row has a present
close. -/
theorem C5_null_close_cex :
    parseAttempt (⟨[86400], [], [], [], [none], [], []⟩ : YahooChart) =
      Except.ok [⟨86400, none, none, none, none, none, none⟩] ∧
    ((parseRecords
        (⟨[86400], [], [], [], [none], [], []⟩ : YahooChart)).getD 0
        default).close = none :=
  ⟨rfl, rfl⟩

/-- C5 amended: `fetch_yahoo_prices` does not discard bars missing close.
Whenever the timestamp and close arrays are non-empty, the attempt returns
one row per timestamp whose close field is exactly the closes entry at its
index (null when the entry is null or the array is too short); only a
payload with an empty timestamp or close array is rejected (as a retryable
attempt failure), so a returned row's close may be null. -/
theorem C5_close_not_discarded (c : YahooChart) (ht : c.timestamps ≠ [])
    (hc : c.closes ≠ []) :
    parseAttempt c = Except.ok (parseRecords c) ∧
    ∀ i, i < (parseRecords c).length →
      ((parseRecords c).getD i default).close = c.closes.getD i none := by
  refine ⟨parseAttempt_ok c ht hc, ?_⟩
  intro i hi
  rw [parseRecords_length] at hi
  rw [parseRecords_getD c i hi]

theorem C5_close_not_discarded_wit :
    ((⟨[86400], [], [], [], [none], [], []⟩ : YahooChart).timestamps ≠ [] ∧
      (⟨[86400], [], [], [], [none], [], []⟩ : YahooChart).closes ≠ []) ∧
    (parseAttempt (⟨[86400], [], [], [], [none], [], []⟩ : YahooChart) =
      Except.ok (parseRecords
        (⟨[86400], [], [], [], [none], [], []⟩ : YahooChart)) ∧
    ∀ i, i < (parseRecords
        (⟨[86400], [], [], [], [none], [], []⟩ : YahooChart)).length →
      ((parseRecords
          (⟨[86400], [], [], [], [none], [], []⟩ : YahooChart)).getD i
          default).close =
        (⟨[86400], [], [], [], [none], [], []⟩ : YahooChart).closes.getD
          i none) :=
  ⟨⟨by decide, by decide⟩,
    C5_close_not_discarded _ (by decide) (by decide)⟩

/-- C8 counterexample: a payload whose parallel arrays (all empty) are
shorter than its one-element timestamp array is not parsed into one
null-field record per timestamp — the empty close array makes every
attempt raise, and the fetch returns an empty frame after exhausting the
six attempts. -/
theorem C8_short_arrays_cex :
    (⟨[86400], [], [], [], [], [], []⟩ : YahooChart).closes.length <
      (⟨[86400], [], [], [], [], [], []⟩ : YahooChart).timestamps.length ∧
    parseAttempt (⟨[86400], [], [], [], [], [], []⟩ : YahooChart) =
      Except.error () ∧
    fetch_yahoo_chart (⟨[86400], [], [], [], [], [], []⟩ : YahooChart) 6 =
      ([], 6) :=
  ⟨by decide, rfl, rfl⟩

theorem getD_none_out_of_range {β : Type} (l : List (Option β)) (i : ℕ)
    (h : l.length ≤ i) : l.getD i none = none := by
  rw [List.getD_eq_getElem?_getD, List.getElem?_eq_none h]
  rfl

/-- C8 amended: whenever the close array (and hence the timestamp array)
is non-empty, parsing the parallel arrays is total in the array lengths:
one record per timestamp is produced, any field whose array is too short
is null, and no index error is raised; a payload with an empty timestamp
or close array is instead treated as a retryable attempt failure. -/
theorem C8_parse_totality (c : YahooChart) (ht : c.timestamps ≠ [])
    (hc : c.closes ≠ []) :
    parseAttempt c = Except.ok (parseRecords c) ∧
    (parseRecords c).length = c.timestamps.length ∧
    ∀ i, i < c.timestamps.length →
      (c.opens.length ≤ i →
        ((parseRecords c).getD i default).«open» = none) ∧
      (c.highs.length ≤ i →
        ((parseRecords c).getD i default).high = none) ∧
      (c.lows.length ≤ i →
        ((parseRecords c).getD i default).low = none) ∧
      (c.closes.length ≤ i →
        ((parseRecords c).getD i default).close = none) ∧
      (c.adjcloses.length ≤ i →
        ((parseRecords c).getD i default).adj_close = none) ∧
      (c.volumes.length ≤ i →
        ((parseRecords c).getD i default).volume = none) := by
  refine ⟨parseAttempt_ok c ht hc, parseRecords_length c, ?_⟩
  intro i hi
  rw [parseRecords_getD c i hi]
  exact ⟨fun h => getD_none_out_of_range _ _ h,
    fun h => getD_none_out_of_range _ _ h,
    fun h => getD_none_out_of_range _ _ h,
    fun h => getD_none_out_of_range _ _ h,
    fun h => getD_none_out_of_range _ _ h,
    fun h => getD_none_out_of_range _ _ h⟩

theorem C8_parse_totality_wit :
    ((⟨[86400, 172800], [some 1], [], [], [some 2], [], []⟩ :
        YahooChart).timestamps ≠ [] ∧
      (⟨[86400, 172800], [some 1], [], [], [some 2], [], []⟩ :
        YahooChart).closes ≠ []) ∧
    (parseAttempt (⟨[86400, 172800], [some 1], [], [], [some 2], [], []⟩ :
        YahooChart) =
      Except.ok (parseRecords
        (⟨[86400, 172800], [some 1], [], [], [some 2], [], []⟩ :
          YahooChart)) ∧
    (parseRecords (⟨[86400, 172800], [some 1], [], [], [some 2], [], []⟩ :
        YahooChart)).length =
      (⟨[86400, 172800], [some 1], [], [], [some 2], [], []⟩ :
        YahooChart).timestamps.length ∧
    ∀ i, i < (⟨[86400, 172800], [some 1], [], [], [some 2], [], []⟩ :
        YahooChart).timestamps.length →
      ((⟨[86400, 172800], [some 1], [], [], [some 2], [], []⟩ :
          YahooChart).opens.length ≤ i →
        ((parseRecords (⟨[86400, 172800], [some 1], [], [], [some 2], [],
            []⟩ : YahooChart)).getD i default).«open» = none) ∧
      ((⟨[86400, 172800], [some 1], [], [], [some 2], [], []⟩ :
          YahooChart).highs.length ≤ i →
        ((parseRecords (⟨[86400, 172800], [some 1], [], [], [some 2], [],
            []⟩ : YahooChart)).getD i default).high = none) ∧
      ((⟨[86400, 172800], [some 1], [], [], [some 2], [], []⟩ :
          YahooChart).lows.length ≤ i →
        ((parseRecords (⟨[86400, 172800], [some 1], [], [], [some 2], [],
            []⟩ : YahooChart)).getD i default).low = none) ∧
      ((⟨[86400, 172800], [some 1], [], [], [some 2], [], []⟩ :
          YahooChart).closes.length ≤ i →
        ((parseRecords (⟨[86400, 172800], [some 1], [], [], [some 2], [],
            []⟩ : YahooChart)).getD i default).close = none) ∧
      ((⟨[86400, 172800], [some 1], [], [], [some 2], [], []⟩ :
          YahooChart).adjcloses.length ≤ i →
        ((parseRecords (⟨[86400, 172800], [some 1], [], [], [some 2], [],
            []⟩ : YahooChart)).getD i default).adj_close = none) ∧
      ((⟨[86400, 172800], [some 1], [], [], [some 2], [], []⟩ :
          YahooChart).volumes.length ≤ i →
        ((parseRecords (⟨[86400, 172800], [some 1], [], [], [some 2], [],
            []⟩ : YahooChart)).getD i default).volume = none)) :=
  ⟨⟨by decide, by decide⟩, C8_parse_totality _ (by decide) (by decide)⟩

/-- C4 counterexample: on an HTTP error status the primary adapter's
`fetch_snapshot` does not retry and does not return an absent result — the
`raise_for_status()` call propagates a `requests.HTTPError` to its caller
(the Orchestrator's per-symbol `try/except`). -/
theorem C4_fetch_snapshot_raises_cex :
    fetch_snapshot (VendorResp.httpFail 500) 0 "AAPL" =
      Except.error (SnapErr.httpError 500) ∧
    fetch_snapshot (VendorResp.httpFail 500) 0 "AAPL" ≠
      Except.ok none := by
  refine ⟨rfl, ?_⟩
  intro h
  simp [fetch_snapshot] at h

/-- C4 amended: `fetch_snapshot` performs no retry; on an HTTP error status
it raises to its caller rather than returning `None`, on a non-OK payload
status or empty timestamp series it returns `None`; the Orchestrator's
per-symbol `try/except` turns every such response into an absent record,
so no vendor failure aborts the run. -/
theorem C4_error_containment (resp : VendorResp) (start_date : ℕ)
    (symbol : String) (hbad : isBadResponse resp = true) :
    snapshotRecord resp start_date symbol = none ∧
    (∀ st, resp = VendorResp.httpFail st →
      fetch_snapshot resp start_date symbol =
        Except.error (SnapErr.httpError st)) ∧
    (∀ d, resp = VendorResp.ok d →
      fetch_snapshot resp start_date symbol = Except.ok none) := by
  rcases resp with d | st | _
  · have hcond : d.s ≠ "ok" ∨ d.t = [] := by
      have h1 := hbad
      simp only [isBadResponse, Bool.or_eq_true, bne_iff_ne,
        List.isEmpty_iff] at h1
      exact h1
    have hfetch : fetch_snapshot (VendorResp.ok d) start_date symbol =
        Except.ok none := by
      simp only [fetch_snapshot]
      rw [if_pos hcond]
    refine ⟨?_, ?_, ?_⟩
    · unfold snapshotRecord
      rw [hfetch]
    · intro st h
      cases h
    · intro d2 h
      cases h
      exact hfetch
  · refine ⟨rfl, ?_, ?_⟩
    · intro st2 h
      cases h
      rfl
    · intro d h
      cases h
  · refine ⟨rfl, ?_, ?_⟩
    · intro st2 h
      cases h
    · intro d h
      cases h

theorem C4_error_containment_wit :
    isBadResponse (VendorResp.httpFail 503) = true ∧
    (snapshotRecord (VendorResp.httpFail 503) 0 "AAPL" = none ∧
    (∀ st, VendorResp.httpFail 503 = VendorResp.httpFail st →
      fetch_snapshot (VendorResp.httpFail 503) 0 "AAPL" =
        Except.error (SnapErr.httpError st)) ∧
    (∀ d, VendorResp.httpFail 503 = VendorResp.ok d →
      fetch_snapshot (VendorResp.httpFail 503) 0 "AAPL" =
        Except.ok none)) :=
  ⟨by decide, C4_error_containment (VendorResp.httpFail 503) 0 "AAPL"
    (by decide)⟩

theorem should_retry_of_retryable (e : FetchErr) (attempt cap : ℕ)
    (hr : retryable e) : should_retry e attempt cap = true := by
  rcases e with st | _
  · rcases st with _ | s
    · exact absurd hr (fun h => h)
    · rcases hr with h429 | h5xx
      · subst h429
        rfl
      · simp only [should_retry, Option.getD_some]
        rw [if_pos ⟨by omega, h5xx⟩]
  · rfl

theorem should_retry_404 (attempt cap : ℕ) :
    should_retry (FetchErr.http (some 404)) attempt cap = false := rfl

theorem runAttempts_all_retryable (outcomes : ℕ → AttemptOutcome)
    (cap : ℕ) :
    ∀ (fuel attempt : ℕ), attempt + fuel = cap →
      (∀ a, attempt ≤ a → a < cap →
        ∃ e, outcomes a = AttemptOutcome.failure e ∧ retryable e) →
      runAttempts outcomes cap attempt fuel = ([], fuel) := by
  intro fuel
  induction fuel with
  | zero =>
    intro attempt _ _
    rfl
  | succ n ih =>
    intro attempt hsum hall
    have hcap : attempt < cap := by omega
    obtain ⟨e, he, hr⟩ := hall attempt le_rfl hcap
    have hsr := should_retry_of_retryable e attempt cap hr
    simp only [runAttempts, he]
    rcases n with _ | m
    · rw [if_neg]
      rintro ⟨h1, _⟩
      omega
    · rw [if_pos ⟨by omega, hsr⟩]
      rw [ih (attempt + 1) (by omega)
        (fun a ha hcap2 => hall a (by omega) hcap2)]

theorem runAttempts_404 (outcomes : ℕ → AttemptOutcome) (cap : ℕ) :
    ∀ (fuel attempt k : ℕ), attempt + fuel = cap → attempt ≤ k →
      k < cap →
      (∀ a, attempt ≤ a → a < k →
        ∃ e, outcomes a = AttemptOutcome.failure e ∧ retryable e) →
      outcomes k = AttemptOutcome.failure (FetchErr.http (some 404)) →
      runAttempts outcomes cap attempt fuel = ([], k + 1 - attempt) := by
  intro fuel
  induction fuel with
  | zero =>
    intro attempt k h1 h2 h3 _ _
    exfalso
    omega
  | succ n ih =>
    intro attempt k h1 h2 h3 hall h404
    rcases Nat.eq_or_lt_of_le h2 with rfl | hlt
    · simp only [runAttempts, h404]
      rw [if_neg]
      · have hone : attempt + 1 - attempt = 1 := by omega
        rw [hone]
      · rintro ⟨_, hsr⟩
        rw [should_retry_404] at hsr
        cases hsr
    · obtain ⟨e, he, hr⟩ := hall attempt le_rfl hlt
      have hsr := should_retry_of_retryable e attempt cap hr
      simp only [runAttempts, he]
      rw [if_pos ⟨by omega, hsr⟩]
      rw [ih (attempt + 1) k (by omega) (by omega) h3
        (fun a ha hak => hall a (by omega) hak) h404]
      have harith : k + 1 - (attempt + 1) + 1 = k + 1 - attempt := by
        omega
      rw [harith]

/-- C6: the fallback fetch's retry decision matches the §4.1
classification — HTTP 429, HTTP 5xx and all non-HTTP errors are retried up
to the attempt cap (the fetch then returns an empty frame after `cap`
attempts), HTTP 404 is never retried (the fetch stops right after the
attempt that got it), and in both stopping cases an empty DataFrame is
returned rather than an exception being propagated. -/
theorem C6_retry_classification (outcomes : ℕ → AttemptOutcome)
    (cap : ℕ) :
    ((∀ a, a < cap →
        ∃ e, outcomes a = AttemptOutcome.failure e ∧ retryable e) →
      fetch_yahoo_prices_retry outcomes cap = ([], cap)) ∧
    (∀ k, k < cap →
      (∀ a, a < k →
        ∃ e, outcomes a = AttemptOutcome.failure e ∧ retryable e) →
      outcomes k = AttemptOutcome.failure (FetchErr.http (some 404)) →
      fetch_yahoo_prices_retry outcomes cap = ([], k + 1)) := by
  constructor
  · intro hall
    exact runAttempts_all_retryable outcomes cap cap 0 (by omega)
      (fun a _ ha => hall a ha)
  · intro k hk hall h404
    have := runAttempts_404 outcomes cap cap 0 k (by omega) (by omega) hk
      (fun a _ hak => hall a hak) h404
    simpa using this

theorem C6_retry_classification_wit :
    (∀ a, a < 6 →
      ∃ e, (fun _ : ℕ => AttemptOutcome.failure (FetchErr.http (some 503)))
          a = AttemptOutcome.failure e ∧ retryable e) ∧
    fetch_yahoo_prices_retry
      (fun _ => AttemptOutcome.failure (FetchErr.http (some 503))) 6 =
      ([], 6) :=
  ⟨fun a _ => ⟨FetchErr.http (some 503), rfl, by decide⟩,
    (C6_retry_classification
      (fun _ => AttemptOutcome.failure (FetchErr.http (some 503))) 6).1
      (fun a _ => ⟨FetchErr.http (some 503), rfl, by decide⟩)⟩

/-- C7: a run in which no symbol yields a bar from either source performs
no warehouse load call and returns normally, while a run in which at least
one bar was obtained loads the whole accumulated batch in one bulk append.
Stated for both orchestrators (`finnhub_snapshot.run` and
`yahoo_backfill.run`). -/
theorem C7_empty_batch_no_load
    (syms : List (Option Snapshot × Option Snapshot))
    (fetched : List (List YRow)) :
    ((∀ p ∈ syms, symbol_record p.1 p.2 = none) →
      finnhub_run syms = none) ∧
    ((∃ p ∈ syms, symbol_record p.1 p.2 ≠ none) →
      finnhub_run syms =
        some (syms.filterMap fun p => symbol_record p.1 p.2) ∧
      syms.filterMap (fun p => symbol_record p.1 p.2) ≠ []) ∧
    ((∀ df ∈ fetched, df = []) → yahoo_run fetched = none) ∧
    ((∃ df ∈ fetched, df ≠ []) →
      yahoo_run fetched =
        some (fetched.filter fun df => !df.isEmpty).flatten ∧
      (fetched.filter fun df => !df.isEmpty) ≠ []) := by
  refine ⟨?_, ?_, ?_, ?_⟩
  · intro hall
    have hnil : syms.filterMap (fun p => symbol_record p.1 p.2) = [] := by
      rw [List.filterMap_eq_nil_iff]
      exact fun p hp => hall p hp
    unfold finnhub_run
    rw [hnil]
    rfl
  · rintro ⟨p, hp, hne⟩
    obtain ⟨b, hb⟩ := Option.ne_none_iff_exists.mp hne
    have hmem : b ∈ syms.filterMap (fun q => symbol_record q.1 q.2) :=
      List.mem_filterMap.mpr ⟨p, hp, hb.symm⟩
    have hne2 : syms.filterMap (fun q => symbol_record q.1 q.2) ≠ [] :=
      List.ne_nil_of_mem hmem
    refine ⟨?_, hne2⟩
    unfold finnhub_run
    rw [if_neg]
    intro hcontra
    exact hne2 (List.isEmpty_iff.mp hcontra)
  · intro hall
    have hnil : fetched.filter (fun df => !df.isEmpty) = [] := by
      rw [List.filter_eq_nil_iff]
      intro df hdf
      rw [hall df hdf]
      decide
    unfold yahoo_run
    rw [hnil]
    rfl
  · rintro ⟨df, hdf, hne⟩
    have hmem : df ∈ fetched.filter (fun x => !x.isEmpty) := by
      refine List.mem_filter.mpr ⟨hdf, ?_⟩
      simpa [List.isEmpty_iff] using hne
    have hne2 : fetched.filter (fun x => !x.isEmpty) ≠ [] :=
      List.ne_nil_of_mem hmem
    refine ⟨?_, hne2⟩
    unfold yahoo_run
    rw [if_neg]
    intro hcontra
    exact hne2 (List.isEmpty_iff.mp hcontra)

theorem C7_empty_batch_no_load_wit :
    (∀ p ∈ ([(none, none)] :
        List (Option Snapshot × Option Snapshot)),
      symbol_record p.1 p.2 = none) ∧
    finnhub_run ([(none, none)] :
      List (Option Snapshot × Option Snapshot)) = none ∧
    (∀ df ∈ ([[]] : List (List YRow)), df = []) ∧
    yahoo_run ([[]] : List (List YRow)) = none := by
  refine ⟨by decide, ?_, by decide, ?_⟩
  · exact (C7_empty_batch_no_load
      ([(none, none)] : List (Option Snapshot × Option Snapshot))
      ([[]] : List (List YRow))).1 (by decide)
  · exact (C7_empty_batch_no_load
      ([(none, none)] : List (Option Snapshot × Option Snapshot))
      ([[]] : List (List YRow))).2.2.1 (by decide)
